import Mathlib

/-!
Verification of the SDG spreadsheet validation engine (`utils.py`, `cesrsalad.py`)
against its natural-language specification.

Strings are modelled as `List Char` (`Str`).  The Python string primitives used
by the source (`str.splitlines`, `str.strip`, `str.split`, `"\n".join`,
`list.sort`) are embedded as executable functions below; character classes
model the ASCII behaviour of the corresponding Python predicates.
-/

/-- Strings of the embedded program: lists of characters. -/
abbrev Str := List Char

/-- Whitespace characters stripped by Python `str.strip()` / split by `str.split()`
(ASCII and Latin-1 range of Python's Unicode whitespace). -/
def isSpace (c : Char) : Bool :=
  c == ' ' || c == '\t' || c == '\n' || c == '\r' || c == '\x0b' || c == '\x0c' ||
  c == '\x1c' || c == '\x1d' || c == '\x1e' || c == '\x1f' || c == '\x85' ||
  c == '\xa0' || c == ' ' || c == ' '

/-- Line boundaries recognised by Python `str.splitlines()`. -/
def isLineBoundary (c : Char) : Bool :=
  c == '\n' || c == '\r' || c == '\x0b' || c == '\x0c' ||
  c == '\x1c' || c == '\x1d' || c == '\x1e' || c == '\x85' ||
  c == ' ' || c == ' '

/-- Worker for `splitlines`: `acc` holds the current line reversed and `prevCR`
records whether the previous character was `'\r'` (so that a following `'\n'`
is part of the same `"\r\n"` boundary).  Each boundary emits the accumulated
line; at the end of the string the accumulated line is emitted only when
nonempty, which realises Python's rule that a trailing boundary produces no
trailing empty line. -/
def splitlinesAux : Str → Str → Bool → List Str
  | [], acc, _ => if acc = [] then [] else [acc.reverse]
  | c :: rest, acc, prevCR =>
    if prevCR ∧ c = '\n' then
      splitlinesAux rest [] false
    else if isLineBoundary c then
      acc.reverse :: splitlinesAux rest [] (c = '\r')
    else
      splitlinesAux rest (c :: acc) false

/-- Python `str.splitlines()`. -/
def splitlines (cs : Str) : List Str :=
  splitlinesAux cs [] false

/-- Python `str.strip()`: drop whitespace from both ends. -/
def strip (cs : Str) : Str :=
  ((cs.dropWhile isSpace).reverse.dropWhile isSpace).reverse

/-- Worker for `pysplit`: `acc` holds the current token reversed. -/
def pysplitGo : Str → Str → List Str
  | [], acc => if acc = [] then [] else [acc.reverse]
  | c :: rest, acc =>
    if isSpace c then
      (if acc = [] then pysplitGo rest [] else acc.reverse :: pysplitGo rest [])
    else
      pysplitGo rest (c :: acc)

/-- Python `str.split()` with no argument: split on runs of whitespace,
discarding empty tokens. -/
def pysplit (cs : Str) : List Str := pysplitGo cs []

/-- Python `"\n".join(ys)`. -/
def pyjoin : List Str → Str
  | [] => []
  | [y] => y
  | y :: rest => y ++ '\n' :: pyjoin rest

/-- Lexicographic (code-point) string order, Python `<=` on `str`. -/
def strle : Str → Str → Bool
  | [], _ => true
  | _ :: _, [] => false
  | a :: as, b :: bs => if a < b then true else if b < a then false else strle as bs

/-- Insert into a `strle`-sorted list, keeping existing equal elements first. -/
def insertSorted (a : Str) : List Str → List Str
  | [] => [a]
  | b :: bs => if strle a b then a :: b :: bs else b :: insertSorted a bs

/-- Python `list.sort()` for lists of strings.  Since `strle` is a total
antisymmetric order, the sorted permutation is unique, so any correct sorting
algorithm (here insertion sort) computes the same list as CPython's timsort. -/
def pysort (l : List Str) : List Str := l.foldr insertSorted []

/-- Distinct elements of a list, Python `list(set(col))` (the set of values;
the order produced here is first-occurrence order, which is irrelevant because
every use sorts the result immediately afterwards). -/
def pydistinct (l : List Str) : List Str :=
  l.foldl (fun acc a => if a ∈ acc then acc else acc ++ [a]) []

/-- Line filter of `build_target_list` (utils.py line 15): a (nonempty) line is
kept unless its first character is alphabetic or `?`.  Python indexes `a[0]`
only on lines already known to be nonempty, so the `[]` case is unreachable
there; we map it to `false`. -/
def keepLine : Str → Bool
  | [] => false
  | c :: _ => !(c.isAlpha || c == '?')

/-- utils.py `build_target_list` (lines 11-17): split the cell on line breaks,
strip each line, drop empty lines, drop narrative lines (first character
alphabetic or `?`), and sort the remainder lexicographically. -/
def build_target_list (colval : Str) : List Str :=
  let nonempty := ((splitlines colval).filter (fun a => decide (strip a ≠ []))).map strip
  let tlist := nonempty.filter keepLine
  pysort tlist

/-- utils.py `get_column` (lines 7-9): `[a[colnumber] for a in matrix]`;
`none` models the `IndexError` on a short row. -/
def get_column : List (List Str) → Nat → Option (List Str)
  | [], _ => some []
  | a :: rest, colnumber =>
    match a.get? colnumber with
    | none => none
    | some x => (get_column rest colnumber).map (fun xs => x :: xs)

/-- First component of the regex `^\d{1,2}\.(...)$`: one or two digits. -/
def digits12 : Str → Bool
  | [a] => a.isDigit
  | [a, b] => a.isDigit && b.isDigit
  | _ => false

/-- Suffix alternative of the regex: `[0-9]{1,2}|[a-z]`. -/
def suffixOk (l : Str) : Bool :=
  digits12 l ||
    (match l with
     | [a] => 'a' ≤ a && a ≤ 'z'
     | _ => false)

/-- Core match of the regex `^\d{1,2}\.([0-9]{1,2}|[a-z])$` used by utils.py
`validate_target_format` (line 28) and `get_valid_target_map` (line 41),
without the end-of-string behaviour of `$`: the string is exactly one or two
digits, a literal dot, then one or two digits or a single lowercase letter.
Since a matching prefix contains no dot, the decomposition at the first dot is
the unique candidate split. -/
def target_format_core (s : Str) : Bool :=
  match s.dropWhile (fun c => !(c == '.')) with
  | c :: suf => c == '.' && digits12 (s.takeWhile (fun c => !(c == '.'))) && suffixOk suf
  | [] => false

/-- Python `re.match` of the anchored pattern: `$` matches at the end of the
string or just before a newline at the end of the string, so the matcher also
accepts the core followed by one trailing `'\n'`. -/
def target_format_match (s : Str) : Bool :=
  target_format_core s ||
    (decide (s.getLast? = some '\n') && target_format_core s.dropLast)

/-- Modelled from the spec (section 8, IdentifierSyntax): the claim's own
reading of the pattern, enumerated by shape — exactly one or two digits, a
literal dot, then one or two digits or one lowercase letter, with no extra
characters before or after. -/
def target_format_spec : Str → Bool
  | [a, b, c] => a.isDigit && b = '.' && (c.isDigit || ('a' ≤ c && c ≤ 'z'))
  | [a, b, c, d] =>
      (a.isDigit && b = '.' && c.isDigit && d.isDigit) ||
      (a.isDigit && b.isDigit && c = '.' && (d.isDigit || ('a' ≤ d && d ≤ 'z')))
  | [a, b, c, d, e] => a.isDigit && b.isDigit && c = '.' && d.isDigit && e.isDigit
  | _ => false

/-- Association-list lookup (first matching key), Python `dict.__getitem__`. -/
def lookupA {K V : Type} [DecidableEq K] : List (K × V) → K → Option V
  | [], _ => none
  | (k', v) :: rest, k => if k' = k then some v else lookupA rest k

/-- Lookup with `[]` default, Python `defaultdict(list)` / `defaultdict(set)` read. -/
def lookupD {K A : Type} [DecidableEq K] (m : List (K × List A)) (k : K) : List A :=
  (lookupA m k).getD []

/-- Append one element to the list stored under `k`, creating the entry at the
end if the key is absent: Python `defaultdict(list)[k].append(a)` (and, when
the element is known not to be present yet, `defaultdict(set)[k].add(a)`). -/
def appendEntry {K A : Type} [DecidableEq K] : List (K × List A) → K → A → List (K × List A)
  | [], k, a => [(k, [a])]
  | (k', l) :: rest, k, a =>
    if k' = k then (k', l ++ [a]) :: rest else (k', l) :: appendEntry rest k a

/-- Plain dict assignment `d[k] = v`: replace the first entry or add at the end. -/
def setA {K V : Type} [DecidableEq K] : List (K × V) → K → V → List (K × V)
  | [], k, v => [(k, v)]
  | (k', v') :: rest, k, v =>
    if k' = k then (k', v) :: rest else (k', v') :: setA rest k v

/-- Key normalisation of utils.py `finddups` (lines 60-61): first
whitespace-separated token of the cell, with one trailing `.` stripped. -/
def normKey (x : Str) : Str :=
  if x.getLast? = some '.' then x.dropLast else x

/-- One row of `finddups`: fetch the cell at `colnumber` (`none` models the
`IndexError` on a short row) and take the first token of its whitespace split
(`none` models the `IndexError` of `split()[0]` on an all-whitespace cell). -/
def rowKeyCell (colnumber : Nat) (row : List Str) : Option (Str × Str) :=
  (row.get? colnumber).bind (fun cell =>
    match pysplit cell with
    | [] => none
    | x :: _ => some (normKey x, cell))

/-- Loop of utils.py `finddups` (lines 58-64): per normalised key, record the
`(cell value, 1-based row number)` pair the first time each distinct full cell
value is seen. -/
def finddupsGo (colnumber : Nat) :
    List (List Str) → Nat → List (Str × List Str) → List (Str × List (Str × Nat)) →
    Option (List (Str × List (Str × Nat)))
  | [], _, _, mismatches => some mismatches
  | row :: rest, n, unique_dict, mismatches =>
    match rowKeyCell colnumber row with
    | none => none
    | some (cid, cell) =>
      let seen := lookupD unique_dict cid
      let mismatches' :=
        if cell ∈ seen then mismatches else appendEntry mismatches cid (cell, n + 1)
      let unique_dict' :=
        if cell ∈ seen then unique_dict else appendEntry unique_dict cid cell
      finddupsGo colnumber rest (n + 1) unique_dict' mismatches'

/-- utils.py `finddups` (lines 53-69): run the loop, then keep only keys whose
recorded list has more than one entry.  `none` models an uncaught exception. -/
def finddups (wks : List (List Str)) (colnumber : Nat) :
    Option (List (Str × List (Str × Nat))) :=
  (finddupsGo colnumber wks 0 [] []).map
    (fun m => m.filter (fun kl => decide (kl.2.length > 1)))

/-- Loop of cesrsalad.py `crossvalidate_with_concept_code` (lines 129-140).
`concepts_dict` maps a concept code to the first-seen `(target list, row)` pair;
`mismatches` collects divergence groups.  The whole divergence-recording block
is guarded by `concept_code not in mismatches` (line 135), and the inner
membership test (line 136) is kept verbatim even though it can never be false
under that guard. -/
def crossvalidateGo (colnumber : Nat) :
    List (List Str) → Nat → List (Str × (List Str × Nat)) →
    List (Str × List (List Str × Nat)) → Option (List (Str × List (List Str × Nat)))
  | [], _, _, mismatches => some mismatches
  | row :: rest, n, concepts_dict, mismatches =>
    match row.get? colnumber with
    | none => none
    | some cell =>
      match row.get? 0 with
      | none => none
      | some concept_code =>
        match lookupA concepts_dict concept_code with
        | some tr =>
          if tr.1 ≠ build_target_list cell then
            if (lookupA mismatches concept_code).isNone then
              crossvalidateGo colnumber rest (n + 1) concepts_dict
                (appendEntry
                  (if tr ∈ lookupD mismatches concept_code then mismatches
                   else appendEntry mismatches concept_code tr)
                  concept_code (build_target_list cell, n + 1))
            else crossvalidateGo colnumber rest (n + 1) concepts_dict mismatches
          else crossvalidateGo colnumber rest (n + 1) concepts_dict mismatches
        | none =>
          crossvalidateGo colnumber rest (n + 1)
            (setA concepts_dict concept_code (build_target_list cell, n + 1)) mismatches

/-- cesrsalad.py `crossvalidate_with_concept_code` (lines 121-140): group rows
by the concept code in column 0 and record divergences of the extracted target
list at `colnumber`.  `none` models an uncaught `IndexError`. -/
def crossvalidate_with_concept_code (wks : List (List Str)) (colnumber : Nat) :
    Option (List (Str × List (List Str × Nat))) :=
  crossvalidateGo colnumber wks 0 [] []

/-- cesrsalad.py `missing_concept_code_from_target_sheet` (lines 173-180):
set difference of the column-0 key sets of the two sheets, in both directions.
Returns `(missing_in_sheet_1, missing_in_sheet_2)` =
`(keys of target sheet minus keys of wks, keys of wks minus keys of target sheet)`. -/
def missing_concept_code_from_target_sheet (wks wks_target_mapping : List (List Str)) :
    Option (Finset Str × Finset Str) :=
  match get_column wks 0 with
  | none => none
  | some concept_code =>
    match get_column wks_target_mapping 0 with
    | none => none
    | some concept_code_from_target_sheet =>
      some (concept_code_from_target_sheet.toFinset \ concept_code.toFinset,
            concept_code.toFinset \ concept_code_from_target_sheet.toFinset)

/-- Command-line flags of cesrsalad.py consumed by `find_similar_text`. -/
structure SimArgs where
  all_similar : Bool
  deeply_similar : Bool
deriving DecidableEq

/-- QA statuses that suppress a similar pair (cesrsalad.py line 309). -/
def qa_done_values : List Str := ["Complete".data, "Needs Review".data]

/-- cesrsalad.py lines 280-281: map each distinct cell value to the 1-based row
numbers where it occurs, shifted by the title-row count at map-building time. -/
def col_line_dict (col : List Str) (title_count : Nat) (v : Str) : List Nat :=
  col.enum.filterMap (fun p => if p.2 = v then some (p.1 + 1 + title_count) else none)

/-- One record of `all_similar_lines`:
`(col_line_dict[val1], val1, col_line_dict[val2], val2)`. -/
abbrev SimRec := List Nat × Str × List Nat × Str

/-- Inner loop of cesrsalad.py `find_similar_text` (lines 292-345) for a fixed
`val1`, iterating over `colunique[n1:]`.  The similarity score is kept abstract
(`similarity.py` is not part of the sources; only the comparison with the
threshold is used).  On a score at or below the threshold the loop breaks
unless `deeply_similar` is set. -/
def find_similar_inner {S : Type} [LT S] [DecidableRel ((· < ·) : S → S → Prop)]
    (sim : Str → Str → S) (threshold : S) (args : SimArgs)
    (colld : Str → List Nat) (qacol : List Str) (title_count : Nat) (val1 : Str) :
    List Str → List SimRec
  | [] => []
  | val2 :: rest =>
    if val2 = [] then
      find_similar_inner sim threshold args colld qacol title_count val1 rest
    else if val1 = val2 then
      find_similar_inner sim threshold args colld qacol title_count val1 rest
    else if threshold < sim val1 val2 then
      let similar_lines : SimRec := (colld val1, val1, colld val2, val2)
      let qacoltest := colld val1 ++ colld val2
      let allqacol_filled :=
        qacoltest.all (fun x => decide (qacol.getD (x - 1 - title_count) [] ∈ qa_done_values))
      let allqacol_filled := if args.all_similar then false else allqacol_filled
      (if allqacol_filled then [] else [similar_lines]) ++
        find_similar_inner sim threshold args colld qacol title_count val1 rest
    else if args.deeply_similar then
      find_similar_inner sim threshold args colld qacol title_count val1 rest
    else []

/-- Outer loop of `find_similar_text` (lines 289-291): for each index `n1` of
the sorted unique list, run the inner loop over `colunique[n1:]`; empty values
are skipped. -/
def find_similar_outer {S : Type} [LT S] [DecidableRel ((· < ·) : S → S → Prop)]
    (sim : Str → Str → S) (threshold : S) (args : SimArgs)
    (colld : Str → List Nat) (qacol : List Str) (title_count : Nat) :
    List Str → List SimRec
  | [] => []
  | val1 :: rest =>
    (if val1 = [] then []
     else find_similar_inner sim threshold args colld qacol title_count val1 (val1 :: rest)) ++
      find_similar_outer sim threshold args colld qacol title_count rest

/-- cesrsalad.py `find_similar_text` (lines 268-345), restricted to the list of
records it accumulates in `all_similar_lines` (report writing is output only).
`col` and `qacol` are the extracted columns 5 and 10 of the worksheet.  The
production path fixes the score to `similarity.cosine_sim` and the threshold to
`0.7`; both are parameters here because `similarity.py` is not among the
sources and only the order relation on scores is ever used. -/
def find_similar_text {S : Type} [LT S] [DecidableRel ((· < ·) : S → S → Prop)]
    (sim : Str → Str → S) (threshold : S) (args : SimArgs)
    (col qacol : List Str) (title_count : Nat) : List SimRec :=
  let colunique := pysort (pydistinct col)
  find_similar_outer sim threshold args (col_line_dict col title_count) qacol title_count colunique

/-- Outcome of the body of the `try` block in cesrsalad.py `main` (lines 613-631). -/
inductive PassOutcome : Type
  | ok : PassOutcome
  | error : Str → PassOutcome
deriving DecidableEq

/-- Observable result of running `main`: whether a traceback with full context
was printed, and the process exit status. -/
structure ProcessResult where
  traceback_printed : Bool
  exit_code : Nat
deriving DecidableEq

/-- cesrsalad.py `main` (lines 613-635): any exception raised during the pass
is caught by the `except` clause, which prints the traceback and the error
message; `main` then returns normally, so the interpreter exits with status 0
on both paths. -/
def main_catch : PassOutcome → ProcessResult
  | PassOutcome.ok => ⟨false, 0⟩
  | PassOutcome.error _ => ⟨true, 0⟩

/-! ### Association-list lemmas -/

theorem lookupA_eq_none_iff {K V : Type} [DecidableEq K] {m : List (K × V)} {k : K} :
    lookupA m k = none ↔ ∀ kl ∈ m, kl.1 ≠ k := by
  induction m with
  | nil => simp [lookupA]
  | cons hd tl ih =>
    obtain ⟨k', v⟩ := hd
    by_cases h : k' = k
    · subst h
      simp [lookupA]
    · simp [lookupA, h, ih]

theorem lookupA_setA {K V : Type} [DecidableEq K] (m : List (K × V)) (k : K) (v : V)
    (q : K) : lookupA (setA m k v) q = if k = q then some v else lookupA m q := by
  induction m with
  | nil => simp [setA, lookupA]
  | cons hd tl ih =>
    obtain ⟨k', v'⟩ := hd
    by_cases h : k' = k
    · subst h
      by_cases hq : k' = q <;> simp [setA, lookupA, hq]
    · by_cases hq : k' = q
      · subst hq
        have : ¬ k = k' := fun e => h e.symm
        simp [setA, lookupA, h, this]
      · simp [setA, lookupA, h, hq, ih]

theorem lookupA_appendEntry {K A : Type} [DecidableEq K] (m : List (K × List A)) (k : K)
    (a : A) (q : K) :
    lookupA (appendEntry m k a) q =
      if k = q then some (lookupD m k ++ [a]) else lookupA m q := by
  induction m with
  | nil => simp [appendEntry, lookupA, lookupD]
  | cons hd tl ih =>
    obtain ⟨k', l⟩ := hd
    by_cases h : k' = k
    · subst h
      by_cases hq : k' = q <;> simp [appendEntry, lookupA, lookupD, hq]
    · by_cases hq : k' = q
      · subst hq
        have : ¬ k = k' := fun e => h e.symm
        simp [appendEntry, lookupA, h, this]
      · simp [appendEntry, lookupA, h, hq, ih, lookupD]

theorem lookupD_appendEntry {K A : Type} [DecidableEq K] (m : List (K × List A)) (k : K)
    (a : A) (q : K) :
    lookupD (appendEntry m k a) q = if k = q then lookupD m k ++ [a] else lookupD m q := by
  unfold lookupD
  rw [lookupA_appendEntry]
  by_cases h : k = q
  · subst h
    simp [lookupD]
  · simp [h]

theorem mem_appendEntry {K A : Type} [DecidableEq K] {m : List (K × List A)} {k : K}
    {a : A} :
    ∀ kl ∈ appendEntry m k a,
      kl ∈ m ∨ (∃ l, (k, l) ∈ m ∧ kl = (k, l ++ [a])) ∨ kl = (k, [a]) := by
  induction m with
  | nil =>
    intro kl h
    simp [appendEntry] at h
    exact Or.inr (Or.inr h)
  | cons hd tl ih =>
    intro kl h
    obtain ⟨k', l⟩ := hd
    by_cases hk : k' = k
    · subst hk
      simp only [appendEntry, if_true, eq_self_iff_true, List.mem_cons, ite_true] at h
      rcases h with h | h
      · exact Or.inr (Or.inl ⟨l, List.mem_cons_self _ _, h⟩)
      · exact Or.inl (List.mem_cons_of_mem _ h)
    · simp only [appendEntry, if_neg hk, List.mem_cons] at h
      rcases h with h | h
      · exact Or.inl (by simp [h])
      · rcases ih kl h with h' | ⟨l', hl', he⟩ | h'
        · exact Or.inl (List.mem_cons_of_mem _ h')
        · exact Or.inr (Or.inl ⟨l', List.mem_cons_of_mem _ hl', he⟩)
        · exact Or.inr (Or.inr h')

theorem appendEntry_of_forall_ne {K A : Type} [DecidableEq K] {m : List (K × List A)}
    {k : K} (h : ∀ kl ∈ m, kl.1 ≠ k) (a : A) :
    appendEntry m k a = m ++ [(k, [a])] := by
  induction m with
  | nil => simp [appendEntry]
  | cons hd tl ih =>
    obtain ⟨k', l⟩ := hd
    have hk : k' ≠ k := h (k', l) (by simp)
    simp only [appendEntry, if_neg hk, List.cons_append, List.cons.injEq, true_and]
    exact ih (fun kl hkl => h kl (List.mem_cons_of_mem _ hkl))

theorem appendEntry_append_single {K A : Type} [DecidableEq K] {m : List (K × List A)}
    {k : K} (h : ∀ kl ∈ m, kl.1 ≠ k) (l : List A) (a : A) :
    appendEntry (m ++ [(k, l)]) k a = m ++ [(k, l ++ [a])] := by
  induction m with
  | nil => simp [appendEntry]
  | cons hd tl ih =>
    obtain ⟨k', l'⟩ := hd
    have hk : k' ≠ k := h (k', l') (by simp)
    simp only [List.cons_append, appendEntry, if_neg hk, List.cons.injEq, true_and]
    exact ih (fun kl hkl => h kl (List.mem_cons_of_mem _ hkl))

/-! ### Lemmas about `pysplit` -/

theorem pysplitGo_ne_nil {cs acc : Str} (h : acc ≠ []) : pysplitGo cs acc ≠ [] := by
  induction cs generalizing acc with
  | nil => simp [pysplitGo, h]
  | cons c rest ih =>
    by_cases hs : isSpace c
    · by_cases ha : acc = []
      · exact absurd ha h
      · simp [pysplitGo, hs, ha]
    · simpa [pysplitGo, hs] using ih (by simp)

theorem pysplit_eq_nil_iff (cs : Str) : pysplit cs = [] ↔ cs.all isSpace = true := by
  unfold pysplit
  induction cs with
  | nil => simp [pysplitGo]
  | cons c rest ih =>
    by_cases hs : isSpace c
    · simpa [pysplitGo, hs] using ih
    · simp only [pysplitGo, if_neg hs, List.all_cons, hs, Bool.false_and]
      exact ⟨fun h => absurd h (pysplitGo_ne_nil (by simp)), fun h => by cases h⟩

/-! ### Lemmas about `pysort` -/

theorem strle_total (a b : Str) : strle a b = true ∨ strle b a = true := by
  induction a generalizing b with
  | nil => exact Or.inl rfl
  | cons x as ih =>
    cases b with
    | nil => exact Or.inr rfl
    | cons y bs =>
      rcases lt_trichotomy x y with h | h | h
      · exact Or.inl (by simp [strle, h])
      · subst h
        rcases ih bs with h' | h'
        · exact Or.inl (by simp [strle, lt_irrefl, h'])
        · exact Or.inr (by simp [strle, lt_irrefl, h'])
      · exact Or.inr (by simp [strle, h])

theorem strle_trans {a b c : Str} (hab : strle a b = true) (hbc : strle b c = true) :
    strle a c = true := by
  induction a generalizing b c with
  | nil => rfl
  | cons x as ih =>
    cases b with
    | nil => simp [strle] at hab
    | cons y bs =>
      cases c with
      | nil => simp [strle] at hbc
      | cons z cs =>
        simp only [strle] at hab hbc ⊢
        by_cases hxy : x < y
        · by_cases hyz : y < z
          · simp [lt_trans hxy hyz]
          · by_cases hzy : z < y
            · simp [hyz, hzy] at hbc
            · have : y = z := le_antisymm (not_lt.mp hzy) (not_lt.mp hyz)
              subst this
              simp [hxy]
        · by_cases hyx : y < x
          · simp [hxy, hyx] at hab
          · have : x = y := le_antisymm (not_lt.mp hyx) (not_lt.mp hxy)
            subst this
            by_cases hyz : x < z
            · simp [hyz]
            · by_cases hzy : z < x
              · simp [hyz, hzy] at hbc
              · have : x = z := le_antisymm (not_lt.mp hzy) (not_lt.mp hyz)
                subst this
                simp only [lt_irrefl, if_false] at hab hbc ⊢
                exact ih hab hbc

theorem insertSorted_perm (a : Str) (l : List Str) :
    (insertSorted a l).Perm (a :: l) := by
  induction l with
  | nil => exact List.Perm.refl _
  | cons b bs ih =>
    by_cases h : strle a b
    · simp [insertSorted, h]
    · simp only [insertSorted, if_neg h]
      exact (ih.cons b).trans (List.Perm.swap a b bs)

theorem pysort_perm (l : List Str) : (pysort l).Perm l := by
  induction l with
  | nil => exact List.Perm.refl _
  | cons x xs ih =>
    exact (insertSorted_perm x (pysort xs)).trans (ih.cons x)

theorem mem_pysort {a : Str} {l : List Str} : a ∈ pysort l ↔ a ∈ l :=
  (pysort_perm l).mem_iff

theorem insertSorted_sorted {a : Str} {l : List Str}
    (h : l.Pairwise (fun x y => strle x y = true)) :
    (insertSorted a l).Pairwise (fun x y => strle x y = true) := by
  induction l with
  | nil => simp [insertSorted]
  | cons b bs ih =>
    by_cases hab : strle a b
    · simp only [insertSorted, if_pos hab]
      refine List.Pairwise.cons ?_ h
      intro y hy
      rcases List.mem_cons.mp hy with rfl | hy
      · exact hab
      · exact strle_trans hab (List.rel_of_pairwise_cons h hy)
    · simp only [insertSorted, if_neg hab]
      have hba : strle b a = true := (strle_total a b).resolve_left hab
      refine List.Pairwise.cons ?_ (ih (List.Pairwise.of_cons h))
      intro y hy
      have := (insertSorted_perm a bs).mem_iff.mp hy
      rcases List.mem_cons.mp this with rfl | hy'
      · exact hba
      · exact List.rel_of_pairwise_cons h hy'

theorem pysort_sorted (l : List Str) :
    (pysort l).Pairwise (fun x y => strle x y = true) := by
  induction l with
  | nil => simp [pysort]
  | cons x xs ih => exact insertSorted_sorted ih

theorem pysort_of_sorted {l : List Str}
    (h : l.Pairwise (fun x y => strle x y = true)) : pysort l = l := by
  induction l with
  | nil => rfl
  | cons x xs ih =>
    have hx : pysort (x :: xs) = insertSorted x (pysort xs) := rfl
    rw [hx, ih (List.Pairwise.of_cons h)]
    cases xs with
    | nil => rfl
    | cons b bs =>
      have : strle x b = true := List.rel_of_pairwise_cons h (by simp)
      simp [insertSorted, this]

/-! ### Lemmas about `strip` -/

theorem dropWhile_head_not {α : Type} {p : α → Bool} :
    ∀ {l : List α} {c : α} {cs : List α}, l.dropWhile p = c :: cs → p c = false := by
  intro l
  induction l with
  | nil => intro c cs h; simp [List.dropWhile] at h
  | cons x xs ih =>
    intro c cs h
    by_cases hx : p x
    · rw [List.dropWhile_cons_of_pos hx] at h
      exact ih h
    · rw [List.dropWhile_cons_of_neg hx] at h
      obtain ⟨rfl, -⟩ := List.cons.inj h
      exact Bool.eq_false_iff.mpr hx

theorem dropWhile_getLast? {α : Type} {p : α → Bool} :
    ∀ {l : List α} {c : α} {cs : List α},
      l.dropWhile p = c :: cs → l.getLast? = (c :: cs).getLast? := by
  intro l
  induction l with
  | nil => intro c cs h; simp [List.dropWhile] at h
  | cons x xs ih =>
    intro c cs h
    by_cases hx : p x
    · rw [List.dropWhile_cons_of_pos hx] at h
      cases xs with
      | nil => simp [List.dropWhile] at h
      | cons y ys => rw [List.getLast?_cons_cons]; exact ih h
    · rw [List.dropWhile_cons_of_neg hx] at h
      rw [h]

theorem mem_dropWhile {α : Type} {p : α → Bool} {a : α} :
    ∀ {l : List α}, a ∈ l.dropWhile p → a ∈ l := by
  intro l
  induction l with
  | nil => intro h; simp [List.dropWhile] at h
  | cons x xs ih =>
    intro h
    by_cases hx : p x
    · rw [List.dropWhile_cons_of_pos hx] at h
      exact List.mem_cons_of_mem _ (ih h)
    · rwa [List.dropWhile_cons_of_neg hx] at h

theorem mem_strip {a : Char} {l : Str} (h : a ∈ strip l) : a ∈ l := by
  unfold strip at h
  rw [List.mem_reverse] at h
  have h1 := mem_dropWhile h
  rw [List.mem_reverse] at h1
  exact mem_dropWhile h1

theorem dropWhile_idem {α : Type} {p : α → Bool} (m : List α) :
    (m.dropWhile p).dropWhile p = m.dropWhile p := by
  cases hd : m.dropWhile p with
  | nil => simp [List.dropWhile]
  | cons c cs => rw [List.dropWhile_cons_of_neg (by simp [dropWhile_head_not hd])]

theorem strip_aux {p : Char → Bool} (l : Str) :
    ((((l.dropWhile p).reverse.dropWhile p).reverse).dropWhile p) =
      ((l.dropWhile p).reverse.dropWhile p).reverse := by
  cases hrev : ((l.dropWhile p).reverse.dropWhile p).reverse with
  | nil => simp [List.dropWhile]
  | cons c cs =>
    obtain ⟨d, ds, hr2⟩ : ∃ d ds, (l.dropWhile p).reverse.dropWhile p = d :: ds := by
      cases hx : (l.dropWhile p).reverse.dropWhile p with
      | nil => rw [hx] at hrev; simp at hrev
      | cons d ds => exact ⟨d, ds, rfl⟩
    have h3 : (l.dropWhile p).reverse.getLast? = (d :: ds).getLast? := dropWhile_getLast? hr2
    rw [List.getLast?_reverse] at h3
    have h4 : (d :: ds).getLast? = some c := by
      rw [← hr2, ← List.head?_reverse, hrev]
      rfl
    have h5 : (l.dropWhile p).head? = some c := by rw [h3, h4]
    obtain ⟨es, hme⟩ : ∃ es, l.dropWhile p = c :: es := by
      cases hx : l.dropWhile p with
      | nil => rw [hx] at h5; simp at h5
      | cons e es =>
        rw [hx] at h5
        simp only [List.head?_cons, Option.some.injEq] at h5
        exact ⟨es, by rw [h5]⟩
    have hc : p c = false := dropWhile_head_not hme
    exact List.dropWhile_cons_of_neg (by simp [hc])

theorem strip_strip (l : Str) : strip (strip l) = strip l := by
  unfold strip
  rw [strip_aux l, List.reverse_reverse, dropWhile_idem]

/-! ### Lemmas about `splitlines` and `pyjoin` -/

theorem splitlinesAux_not_boundary :
    ∀ {cs acc : Str} {prevCR : Bool},
      (∀ c ∈ acc, isLineBoundary c = false) →
      ∀ l ∈ splitlinesAux cs acc prevCR, ∀ c ∈ l, isLineBoundary c = false := by
  intro cs
  induction cs with
  | nil =>
    intro acc prevCR hacc l hl c hc
    by_cases ha : acc = []
    · simp [splitlinesAux, ha] at hl
    · simp only [splitlinesAux, if_neg ha, List.mem_singleton] at hl
      subst hl
      exact hacc c (List.mem_reverse.mp hc)
  | cons d rest ih =>
    intro acc prevCR hacc l hl c hc
    by_cases h1 : prevCR ∧ d = '\n'
    · rw [splitlinesAux, if_pos h1] at hl
      exact ih (by simp) l hl c hc
    · by_cases h2 : isLineBoundary d
      · rw [splitlinesAux, if_neg h1, if_pos h2] at hl
        rcases List.mem_cons.mp hl with rfl | hl'
        · exact hacc c (List.mem_reverse.mp hc)
        · exact ih (by simp) l hl' c hc
      · rw [splitlinesAux, if_neg h1, if_neg h2] at hl
        refine ih ?_ l hl c hc
        intro e he
        rcases List.mem_cons.mp he with rfl | he'
        · exact Bool.eq_false_iff.mpr h2
        · exact hacc e he'

theorem mem_splitlines_not_boundary {cs : Str} :
    ∀ l ∈ splitlines cs, ∀ c ∈ l, isLineBoundary c = false :=
  splitlinesAux_not_boundary (by simp)

theorem splitlinesAux_append {y : Str} (hy : ∀ c ∈ y, isLineBoundary c = false) :
    ∀ (s acc : Str), splitlinesAux (y ++ s) acc false = splitlinesAux s (y.reverse ++ acc) false := by
  induction y with
  | nil => intro s acc; simp
  | cons c ys ih =>
    intro s acc
    have hc : isLineBoundary c = false := hy c (by simp)
    rw [List.cons_append, splitlinesAux, if_neg (by simp), if_neg (by simp [hc])]
    rw [ih (fun d hd => hy d (List.mem_cons_of_mem _ hd)) s (c :: acc)]
    simp

theorem splitlines_pyjoin :
    ∀ {ys : List Str}, (∀ y ∈ ys, y ≠ []) →
      (∀ y ∈ ys, ∀ c ∈ y, isLineBoundary c = false) →
      splitlines (pyjoin ys) = ys := by
  intro ys
  induction ys with
  | nil => intro _ _; rfl
  | cons y ys ih =>
    intro hne hnb
    have hy_ne : y ≠ [] := hne y (by simp)
    have hy_nb : ∀ c ∈ y, isLineBoundary c = false := hnb y (by simp)
    cases ys with
    | nil =>
      show splitlines y = [y]
      unfold splitlines
      have := splitlinesAux_append hy_nb [] []
      rw [List.append_nil] at this
      rw [this, splitlinesAux, if_neg (by simpa using hy_ne)]
      simp
    | cons y' ys' =>
      show splitlines (y ++ '\n' :: pyjoin (y' :: ys')) = y :: y' :: ys'
      unfold splitlines
      rw [splitlinesAux_append hy_nb, List.append_nil, splitlinesAux,
        if_neg (by simp), if_pos (by decide)]
      have : (decide ('\n' = '\r')) = false := by decide
      rw [this]
      have ihe : splitlines (pyjoin (y' :: ys')) = y' :: ys' :=
        ih (fun z hz => hne z (List.mem_cons_of_mem _ hz))
          (fun z hz => hnb z (List.mem_cons_of_mem _ hz))
      unfold splitlines at ihe
      rw [ihe, List.reverse_reverse]

/-! ### Structure of `build_target_list` output -/

theorem mem_build_target_list {x y : Str} (h : y ∈ build_target_list x) :
    y ≠ [] ∧ strip y = y ∧ keepLine y = true ∧ ∀ c ∈ y, isLineBoundary c = false := by
  unfold build_target_list at h
  rw [mem_pysort, List.mem_filter] at h
  obtain ⟨hmem, hkeep⟩ := h
  rw [List.mem_map] at hmem
  obtain ⟨a, ha, rfl⟩ := hmem
  rw [List.mem_filter] at ha
  obtain ⟨hal, hane⟩ := ha
  have hane' : strip a ≠ [] := by simpa using hane
  refine ⟨hane', strip_strip a, hkeep, ?_⟩
  intro c hc
  exact mem_splitlines_not_boundary a hal c (mem_strip hc)

theorem build_target_list_sorted (x : Str) :
    (build_target_list x).Pairwise (fun a b => strle a b = true) :=
  pysort_sorted _

theorem map_strip_id {l : List Str} (h : ∀ a ∈ l, strip a = a) : l.map strip = l := by
  induction l with
  | nil => rfl
  | cons x xs ih =>
    rw [List.map_cons, h x (by simp), ih (fun a ha => h a (List.mem_cons_of_mem _ ha))]

/-- C8: `build_target_list` is idempotent on its own output: re-extracting from
the newline-join of the extracted list returns the same list. -/
theorem c8_build_target_list_idempotent (x : Str) :
    build_target_list (pyjoin (build_target_list x)) = build_target_list x := by
  by_cases hys : build_target_list x = []
  · rw [hys]
    rfl
  · have hsplit : splitlines (pyjoin (build_target_list x)) = build_target_list x :=
      splitlines_pyjoin (fun y hy => (mem_build_target_list hy).1)
        (fun y hy => (mem_build_target_list hy).2.2.2)
    show pysort ((((splitlines (pyjoin (build_target_list x))).filter
        (fun a => decide (strip a ≠ []))).map strip).filter keepLine) = build_target_list x
    rw [hsplit]
    have h1 : (build_target_list x).filter (fun a => decide (strip a ≠ [])) =
        build_target_list x := by
      apply List.filter_eq_self.mpr
      intro a ha
      have hp := mem_build_target_list ha
      rw [hp.2.1]
      exact decide_eq_true hp.1
    rw [h1, map_strip_id (fun a ha => (mem_build_target_list ha).2.1)]
    have h3 : (build_target_list x).filter keepLine = build_target_list x :=
      List.filter_eq_self.mpr (fun a ha => (mem_build_target_list ha).2.2.1)
    rw [h3]
    exact pysort_of_sorted (build_target_list_sorted x)

/-! ### The identifier-format regex: core match versus the spec's reading -/

theorem digits12_iff {p : Str} :
    digits12 p = true ↔
      (∃ a, p = [a] ∧ a.isDigit = true) ∨
      (∃ a b, p = [a, b] ∧ a.isDigit = true ∧ b.isDigit = true) := by
  rcases p with _ | ⟨a, _ | ⟨b, _ | ⟨c, t⟩⟩⟩ <;> simp [digits12] <;> aesop

theorem suffixOk_iff {q : Str} :
    suffixOk q = true ↔
      (∃ c, q = [c] ∧ (c.isDigit = true ∨ ('a' ≤ c ∧ c ≤ 'z'))) ∨
      (∃ c d, q = [c, d] ∧ c.isDigit = true ∧ d.isDigit = true) := by
  rcases q with _ | ⟨c, _ | ⟨d, _ | ⟨e, t⟩⟩⟩ <;> simp [suffixOk, digits12] <;> aesop

theorem isDigit_ne_dot {c : Char} (h : c.isDigit = true) : (!(c == '.')) = true := by
  by_cases hc : c = '.'
  · subst hc
    exact absurd h (by decide)
  · simp [hc]

theorem takeWhile_append_all {α : Type} {pr : α → Bool} :
    ∀ {p : List α} {x : α} {q : List α}, (∀ c ∈ p, pr c = true) → pr x = false →
      (p ++ x :: q).takeWhile pr = p ∧ (p ++ x :: q).dropWhile pr = x :: q := by
  intro p
  induction p with
  | nil =>
    intro x q _ hx
    exact ⟨List.takeWhile_cons_of_neg (by simp [hx]), List.dropWhile_cons_of_neg (by simp [hx])⟩
  | cons a p ih =>
    intro x q hall hx
    have ha : pr a = true := hall a (by simp)
    have h2 := @ih x q (fun c hc => hall c (List.mem_cons_of_mem _ hc)) hx
    constructor
    · rw [List.cons_append, List.takeWhile_cons_of_pos ha, h2.1]
    · rw [List.cons_append, List.dropWhile_cons_of_pos ha, h2.2]

theorem target_format_core_iff {s : Str} :
    target_format_core s = true ↔
      ∃ p q, s = p ++ '.' :: q ∧ digits12 p = true ∧ suffixOk q = true := by
  constructor
  · intro h
    unfold target_format_core at h
    cases hd : s.dropWhile (fun c => !(c == '.')) with
    | nil => rw [hd] at h; simp at h
    | cons c suf =>
      rw [hd] at h
      simp only [Bool.and_eq_true, beq_iff_eq] at h
      obtain ⟨⟨hc, hdig⟩, hsuf⟩ := h
      subst hc
      refine ⟨s.takeWhile (fun c => !(c == '.')), suf, ?_, hdig, hsuf⟩
      conv_lhs => rw [← List.takeWhile_append_dropWhile (fun c => !(c == '.')) s]
      rw [hd]
  · rintro ⟨p, q, rfl, hp, hq⟩
    have hall : ∀ c ∈ p, (!(c == '.')) = true := by
      intro c hc
      rcases digits12_iff.mp hp with ⟨a, rfl, ha⟩ | ⟨a, b, rfl, ha, hb⟩
      · rcases List.mem_singleton.mp hc with rfl
        exact isDigit_ne_dot ha
      · rcases List.mem_cons.mp hc with rfl | hc'
        · exact isDigit_ne_dot ha
        · rcases List.mem_singleton.mp hc' with rfl
          exact isDigit_ne_dot hb
    have hdot : (!(('.' : Char) == '.')) = false := by decide
    obtain ⟨ht, hdw⟩ := takeWhile_append_all hall hdot
    unfold target_format_core
    rw [hdw, ht]
    simp [hp, hq]

theorem target_format_spec_iff {s : Str} :
    target_format_spec s = true ↔
      ∃ p q, s = p ++ '.' :: q ∧ digits12 p = true ∧ suffixOk q = true := by
  constructor
  · intro h
    rcases s with _ | ⟨a, _ | ⟨b, _ | ⟨c, _ | ⟨d, _ | ⟨e, _ | ⟨f, t⟩⟩⟩⟩⟩⟩
    · simp [target_format_spec] at h
    · simp [target_format_spec] at h
    · simp [target_format_spec] at h
    · simp only [target_format_spec, Bool.and_eq_true, decide_eq_true_eq, Bool.or_eq_true] at h
      obtain ⟨⟨ha, hb⟩, hc⟩ := h
      subst hb
      exact ⟨[a], [c], rfl, by simp [digits12, ha], by
        rcases hc with hc | hc
        · simp [suffixOk, digits12, hc]
        · simp [suffixOk, hc.1, hc.2]⟩
    · simp only [target_format_spec, Bool.and_eq_true, decide_eq_true_eq, Bool.or_eq_true] at h
      rcases h with ⟨⟨⟨ha, hb⟩, hc⟩, hd⟩ | ⟨⟨⟨ha, hb⟩, hc⟩, hd⟩
      · subst hb
        exact ⟨[a], [c, d], rfl, by simp [digits12, ha], by simp [suffixOk, digits12, hc, hd]⟩
      · subst hc
        refine ⟨[a, b], [d], rfl, by simp [digits12, ha, hb], ?_⟩
        rcases hd with hd | hd
        · simp [suffixOk, digits12, hd]
        · simp [suffixOk, hd.1, hd.2]
    · simp only [target_format_spec, Bool.and_eq_true, decide_eq_true_eq] at h
      obtain ⟨⟨⟨⟨ha, hb⟩, hc⟩, hd⟩, he⟩ := h
      subst hc
      exact ⟨[a, b], [d, e], rfl, by simp [digits12, ha, hb], by simp [suffixOk, digits12, hd, he]⟩
    · simp [target_format_spec] at h
  · rintro ⟨p, q, rfl, hp, hq⟩
    rcases digits12_iff.mp hp with ⟨a, rfl, ha⟩ | ⟨a, b, rfl, ha, hb⟩
    · rcases suffixOk_iff.mp hq with ⟨c, rfl, hc⟩ | ⟨c, d, rfl, hc, hd⟩
      · show target_format_spec [a, '.', c] = true
        rcases hc with hc | hc
        · simp [target_format_spec, ha, hc]
        · simp [target_format_spec, ha, hc.1, hc.2]
      · show target_format_spec [a, '.', c, d] = true
        simp [target_format_spec, ha, hc, hd]
    · rcases suffixOk_iff.mp hq with ⟨c, rfl, hc⟩ | ⟨c, d, rfl, hc, hd⟩
      · show target_format_spec [a, b, '.', c] = true
        rcases hc with hc | hc
        · simp [target_format_spec, ha, hb, hc]
        · simp [target_format_spec, ha, hb, hc.1, hc.2]
      · show target_format_spec [a, b, '.', c, d] = true
        simp [target_format_spec, ha, hb, hc, hd]

theorem target_format_core_eq_spec (s : Str) :
    target_format_core s = target_format_spec s := by
  by_cases hc : target_format_core s = true
  · rw [hc, eq_comm]
    exact target_format_spec_iff.mpr (target_format_core_iff.mp hc)
  · have hs : ¬ target_format_spec s = true :=
      fun h => hc (target_format_core_iff.mpr (target_format_spec_iff.mp h))
    rw [Bool.not_eq_true] at hc hs
    rw [hc, hs]

/-- C2 (counterexample): the claim requires every string with a trailing
character after the accepted core — including a trailing newline — to be
rejected, but the matcher accepts `"3.1\n"`: Python's `$` matches just before
a newline at the end of the string.  So `target_format_match` is not
equivalent to the claim's anchored reading `target_format_spec`. -/
theorem c2_counterexample :
    target_format_match "3.1\n".data = true ∧ target_format_spec "3.1\n".data = false := by
  decide

/-- C2 (amended): the regex used by `validate_target_format` and
`get_valid_target_map` accepts exactly the strings of the claimed shape — one
or two digits, a literal dot, then one or two digits or one lowercase letter —
either alone or followed by a single trailing newline (Python `$` semantics);
everything else, including any other trailing character, is rejected. -/
theorem c2_target_format_amended (s : Str) :
    target_format_match s =
      (target_format_spec s ||
        (decide (s.getLast? = some '\n') && target_format_spec s.dropLast)) := by
  unfold target_format_match
  rw [target_format_core_eq_spec, target_format_core_eq_spec]

/-- C5 (counterexample): when the pass raises (for example an upstream fetch
failure), `main` catches the exception, prints the traceback and error message,
and returns normally — the interpreter then exits with status 0, not a
non-zero status as the claim states. -/
theorem c5_counterexample :
    main_catch (PassOutcome.error "upstream fetch failure".data) = ⟨true, 0⟩ ∧
      (main_catch (PassOutcome.error "upstream fetch failure".data)).exit_code = 0 :=
  ⟨rfl, rfl⟩

/-- C5 (amended): any uncaught error during a validation or sync pass is
reported with its full context (traceback and message), and the process then
terminates with exit status zero, because the handler swallows the
exception. -/
theorem c5_amended (msg : Str) :
    main_catch (PassOutcome.error msg) = ⟨true, 0⟩ := rfl

/-- C7: the key-set difference computation is antisymmetric under argument
swap, and it returns a pair of empty sets whenever the two tables have
identical sets of distinct key-column values. -/
theorem c7_diff_key_sets :
    (∀ A B p, missing_concept_code_from_target_sheet A B = some p →
      missing_concept_code_from_target_sheet B A = some (p.2, p.1)) ∧
    (∀ A B cA cB, get_column A 0 = some cA → get_column B 0 = some cB →
      cA.toFinset = cB.toFinset →
      missing_concept_code_from_target_sheet A B = some (∅, ∅)) := by
  constructor
  · intro A B p h
    unfold missing_concept_code_from_target_sheet at h ⊢
    cases hA : get_column A 0 with
    | none => rw [hA] at h; cases h
    | some ca =>
      cases hB : get_column B 0 with
      | none => rw [hA, hB] at h; cases h
      | some cb =>
        rw [hA, hB] at h
        simp only [Option.some.injEq] at h
        subst h
        rfl
  · intro A B cA cB hA hB heq
    unfold missing_concept_code_from_target_sheet
    rw [hA, hB]
    show some (cB.toFinset \ cA.toFinset, cA.toFinset \ cB.toFinset) = some (∅, ∅)
    rw [heq]
    simp

/-- C7 (witness): concrete instance with identical key sets. -/
theorem c7_witness :
    missing_concept_code_from_target_sheet [["a".data]] [["a".data]] = some (∅, ∅) :=
  c7_diff_key_sets.2 [["a".data]] [["a".data]] ["a".data] ["a".data] rfl rfl rfl

/-! ### Lemmas about `finddups` -/

theorem finddupsGo_cons {colnumber : Nat} {row : List Str} {cid cell : Str}
    (rest : List (List Str)) (n : Nat) (uniq : List (Str × List Str))
    (mism : List (Str × List (Str × Nat)))
    (hkc : rowKeyCell colnumber row = some (cid, cell)) :
    finddupsGo colnumber (row :: rest) n uniq mism =
      finddupsGo colnumber rest (n + 1)
        (if cell ∈ lookupD uniq cid then uniq else appendEntry uniq cid cell)
        (if cell ∈ lookupD uniq cid then mism else appendEntry mism cid (cell, n + 1)) := by
  conv_lhs => unfold finddupsGo; rw [hkc]

theorem finddupsGo_cons_none {colnumber : Nat} {row : List Str}
    (rest : List (List Str)) (n : Nat) (uniq : List (Str × List Str))
    (mism : List (Str × List (Str × Nat)))
    (hkc : rowKeyCell colnumber row = none) :
    finddupsGo colnumber (row :: rest) n uniq mism = none := by
  conv_lhs => unfold finddupsGo; rw [hkc]

theorem rowKeyCell_inv {colnumber : Nat} {row : List Str} {cid cell : Str}
    (h : rowKeyCell colnumber row = some (cid, cell)) :
    row.get? colnumber = some cell := by
  unfold rowKeyCell at h
  rw [Option.bind_eq_some] at h
  obtain ⟨c, hg, hf⟩ := h
  cases hp : pysplit c with
  | nil => rw [hp] at hf; cases hf
  | cons x xs =>
    rw [hp] at hf
    simp only [Option.some.injEq, Prod.mk.injEq] at hf
    rw [hg, hf.2]

theorem forall_ne_of_lookupD_nil {K A : Type} [DecidableEq K] :
    ∀ {m : List (K × List A)} {k : K}, (∀ kl ∈ m, kl.2 ≠ []) → lookupD m k = [] →
      ∀ kl ∈ m, kl.1 ≠ k := by
  intro m
  induction m with
  | nil => intro k _ _ kl hkl; cases hkl
  | cons hd tl ih =>
    intro k hne hlk kl hkl
    obtain ⟨k', l⟩ := hd
    by_cases hk : k' = k
    · subst hk
      have : lookupD ((k', l) :: tl) k' = l := by simp [lookupD, lookupA]
      rw [this] at hlk
      exact absurd hlk (hne (k', l) (by simp))
    · rcases List.mem_cons.mp hkl with rfl | hkl'
      · exact hk
      · have : lookupD ((k', l) :: tl) k = lookupD tl k := by simp [lookupD, lookupA, hk]
        rw [this] at hlk
        exact ih (fun x hx => hne x (List.mem_cons_of_mem _ hx)) hlk kl hkl'

theorem finddupsGo_isSome {colnumber : Nat} :
    ∀ (rows : List (List Str)) (n : Nat) (uniq : List (Str × List Str))
      (mism : List (Str × List (Str × Nat))),
      (∀ row ∈ rows, (rowKeyCell colnumber row).isSome) →
      ∃ res, finddupsGo colnumber rows n uniq mism = some res := by
  intro rows
  induction rows with
  | nil => intro n uniq mism _; exact ⟨mism, rfl⟩
  | cons row rest ih =>
    intro n uniq mism H
    obtain ⟨⟨cid, cell⟩, hkc⟩ :=
      Option.isSome_iff_exists.mp (H row (by simp))
    rw [finddupsGo_cons rest n uniq mism hkc]
    exact ih (n + 1) _ _ (fun r hr => H r (List.mem_cons_of_mem _ hr))

theorem finddupsGo_short {colnumber : Nat} :
    ∀ (rows : List (List Str)) (n : Nat) (uniq : List (Str × List Str))
      (mism : List (Str × List (Str × Nat))) (res : List (Str × List (Str × Nat))),
      (∀ k c, c ∈ lookupD uniq k →
        ∀ row ∈ rows, ∀ c', rowKeyCell colnumber row = some (k, c') → c' = c) →
      (∀ r1 ∈ rows, ∀ r2 ∈ rows, ∀ k c1 c2, rowKeyCell colnumber r1 = some (k, c1) →
          rowKeyCell colnumber r2 = some (k, c2) → c1 = c2) →
      (∀ k, (lookupD uniq k).length ≤ 1) →
      (∀ k, (lookupD mism k).length ≤ (lookupD uniq k).length) →
      (∀ kl ∈ mism, kl.2 ≠ []) →
      (∀ kl ∈ mism, kl.2.length ≤ 1) →
      finddupsGo colnumber rows n uniq mism = some res →
      ∀ kl ∈ res, kl.2.length ≤ 1 := by
  intro rows
  induction rows with
  | nil =>
    intro n uniq mism res _ _ _ _ _ h6 hgo
    cases hgo
    exact h6
  | cons row rest ih =>
    intro n uniq mism res h1 h2 h3 h4 h5 h6 hgo
    cases hkc : rowKeyCell colnumber row with
    | none =>
      rw [finddupsGo_cons_none rest n uniq mism hkc] at hgo
      cases hgo
    | some p =>
      obtain ⟨cid, cell⟩ := p
      rw [finddupsGo_cons rest n uniq mism hkc] at hgo
      by_cases hmem : cell ∈ lookupD uniq cid
      · rw [if_pos hmem, if_pos hmem] at hgo
        exact ih (n + 1) uniq mism res
          (fun k c hc r hr => h1 k c hc r (List.mem_cons_of_mem _ hr))
          (fun r1 hr1 r2 hr2 => h2 r1 (List.mem_cons_of_mem _ hr1) r2 (List.mem_cons_of_mem _ hr2))
          h3 h4 h5 h6 hgo
      · rw [if_neg hmem, if_neg hmem] at hgo
        have huq : lookupD uniq cid = [] := by
          rcases hu : lookupD uniq cid with _ | ⟨c0, cs⟩
          · rfl
          · have hc0 : c0 ∈ lookupD uniq cid := by rw [hu]; simp
            have := h1 cid c0 hc0 row (by simp) cell hkc
            rw [this] at hmem
            exact absurd hc0 hmem
        have hmq : lookupD mism cid = [] := by
          have := h4 cid
          rw [huq] at this
          simp at this
          exact this
        have hkeys : ∀ kl ∈ mism, kl.1 ≠ cid := forall_ne_of_lookupD_nil h5 hmq
        have happ : appendEntry mism cid (cell, n + 1) = mism ++ [(cid, [(cell, n + 1)])] :=
          appendEntry_of_forall_ne hkeys _
        refine ih (n + 1) _ _ res ?_ ?_ ?_ ?_ ?_ ?_ hgo
        · intro k c hc r hr c' hr'
          rw [lookupD_appendEntry] at hc
          by_cases hk : cid = k
          · subst hk
            rw [if_pos rfl, huq] at hc
            simp at hc
            rw [hc]
            exact h2 r (List.mem_cons_of_mem _ hr) row (by simp) cid c' cell hr' hkc
          · rw [if_neg hk] at hc
            exact h1 k c hc r (List.mem_cons_of_mem _ hr) c' hr'
        · exact fun r1 hr1 r2 hr2 =>
            h2 r1 (List.mem_cons_of_mem _ hr1) r2 (List.mem_cons_of_mem _ hr2)
        · intro k
          rw [lookupD_appendEntry]
          by_cases hk : cid = k
          · subst hk
            rw [if_pos rfl, huq]
            simp
          · rw [if_neg hk]
            exact h3 k
        · intro k
          rw [lookupD_appendEntry, lookupD_appendEntry]
          by_cases hk : cid = k
          · subst hk
            rw [if_pos rfl, if_pos rfl, huq, hmq]
            simp
          · rw [if_neg hk, if_neg hk]
            exact h4 k
        · intro kl hkl
          rw [happ] at hkl
          rcases List.mem_append.mp hkl with hkl' | hkl'
          · exact h5 kl hkl'
          · rcases List.mem_singleton.mp hkl' with rfl
            simp
        · intro kl hkl
          rw [happ] at hkl
          rcases List.mem_append.mp hkl with hkl' | hkl'
          · exact h6 kl hkl'
          · rcases List.mem_singleton.mp hkl' with rfl
            simp

/-- C3: under the precondition that every row has a cell at the column index
with at least one whitespace-separated token, `finddups` succeeds, every key in
its result carries a recorded list of strictly more than one `(value, row)`
pair, and the result is empty whenever any two rows with the same normalised
key carry the same full cell value. -/
theorem c3_finddups (wks : List (List Str)) (colnumber : Nat)
    (H : ∀ row ∈ wks, (rowKeyCell colnumber row).isSome) :
    ∃ res, finddups wks colnumber = some res ∧
      (∀ kl ∈ res, kl.2.length > 1) ∧
      ((∀ r1 ∈ wks, ∀ r2 ∈ wks, ∀ k c1 c2, rowKeyCell colnumber r1 = some (k, c1) →
          rowKeyCell colnumber r2 = some (k, c2) → c1 = c2) → res = []) := by
  obtain ⟨m, hm⟩ := finddupsGo_isSome wks 0 [] [] H
  refine ⟨m.filter (fun kl => decide (kl.2.length > 1)), ?_, ?_, ?_⟩
  · unfold finddups
    rw [hm]
    rfl
  · intro kl hkl
    have := List.mem_filter.mp hkl
    exact of_decide_eq_true this.2
  · intro hcons
    have hshort : ∀ kl ∈ m, kl.2.length ≤ 1 := by
      refine finddupsGo_short wks 0 [] [] m ?_ hcons ?_ ?_ ?_ ?_ hm
      · intro k c hc
        simp [lookupD, lookupA] at hc
      · intro k
        simp [lookupD, lookupA]
      · intro k
        simp [lookupD, lookupA]
      · intro kl hkl
        cases hkl
      · intro kl hkl
        cases hkl
    apply List.filter_eq_nil_iff.mpr
    intro kl hkl
    have h1 := hshort kl hkl
    simp only [decide_eq_true_eq]
    omega

/-- C3 (witness): a concrete table with a genuine duplicate-key inconsistency,
exercising the success and length parts of the theorem. -/
theorem c3_witness :
    ∃ res, finddups [["3 Goal".data], ["3. Other".data]] 0 = some res ∧
      (∀ kl ∈ res, kl.2.length > 1) ∧
      ((∀ r1 ∈ [["3 Goal".data], ["3. Other".data]],
          ∀ r2 ∈ [["3 Goal".data], ["3. Other".data]],
          ∀ k c1 c2, rowKeyCell 0 r1 = some (k, c1) →
          rowKeyCell 0 r2 = some (k, c2) → c1 = c2) → res = []) :=
  c3_finddups [["3 Goal".data], ["3. Other".data]] 0 (by decide)

theorem finddupsGo_none {colnumber : Nat} :
    ∀ (rows : List (List Str)) (n : Nat) (uniq : List (Str × List Str))
      (mism : List (Str × List (Str × Nat))),
      (∃ row ∈ rows, (row.get? colnumber).elim false (fun cell => cell.all isSpace) = true) →
      finddupsGo colnumber rows n uniq mism = none := by
  intro rows
  induction rows with
  | nil => intro n uniq mism h; simp at h
  | cons row rest ih =>
    intro n uniq mism h
    rcases h with ⟨r, hr, hbad⟩
    rcases List.mem_cons.mp hr with rfl | hr'
    · cases hg : r.get? colnumber with
      | none => rw [hg] at hbad; cases hbad
      | some cell =>
        rw [hg] at hbad
        have hsplit : pysplit cell = [] := (pysplit_eq_nil_iff cell).mpr hbad
        have hkc : rowKeyCell colnumber r = none := by
          unfold rowKeyCell
          rw [hg]
          show (match pysplit cell with
            | [] => none
            | x :: _ => some (normKey x, cell)) = (none : Option (Str × Str))
          rw [hsplit]
        exact finddupsGo_cons_none rest n uniq mism hkc
    · cases hkc : rowKeyCell colnumber row with
      | none => exact finddupsGo_cons_none rest n uniq mism hkc
      | some p =>
        obtain ⟨cid, cell⟩ := p
        rw [finddupsGo_cons rest n uniq mism hkc]
        exact ih (n + 1) _ _ ⟨r, hr', hbad⟩

/-- C9: `finddups` raises an unhandled exception (modelled as `none`) on a
well-formed table — all rows wide enough — as soon as any row's cell at the
column index is empty or consists only of whitespace, because `split()[0]`
fails on such a cell. -/
theorem c9_finddups_whitespace (wks : List (List Str)) (colnumber : Nat)
    (_Hwidth : ∀ row ∈ wks, (row.get? colnumber).isSome)
    (Hbad : ∃ row ∈ wks, (row.get? colnumber).elim false (fun cell => cell.all isSpace) = true) :
    finddups wks colnumber = none := by
  unfold finddups
  rw [finddupsGo_none wks 0 [] [] Hbad]
  rfl

/-- C9 (witness): a table whose second row has a whitespace-only cell. -/
theorem c9_witness : finddups [["1.1 x".data], ["   ".data]] 0 = none :=
  c9_finddups_whitespace [["1.1 x".data], ["   ".data]] 0 (by decide) (by decide)

/-! ### Lemmas about `crossvalidate_with_concept_code` -/

theorem crossvalidateGo_err1 {colnumber : Nat} {row : List Str}
    (rest : List (List Str)) (n : Nat) (cd : List (Str × (List Str × Nat)))
    (m : List (Str × List (List Str × Nat)))
    (h1 : row.get? colnumber = none) :
    crossvalidateGo colnumber (row :: rest) n cd m = none := by
  simp only [crossvalidateGo, h1]

theorem crossvalidateGo_err2 {colnumber : Nat} {row : List Str} {cell : Str}
    (rest : List (List Str)) (n : Nat) (cd : List (Str × (List Str × Nat)))
    (m : List (Str × List (List Str × Nat)))
    (h1 : row.get? colnumber = some cell) (h2 : row.get? 0 = none) :
    crossvalidateGo colnumber (row :: rest) n cd m = none := by
  simp only [crossvalidateGo, h1, h2]

theorem crossvalidateGo_new {colnumber : Nat} {row : List Str} {cell cc : Str}
    (rest : List (List Str)) (n : Nat) (cd : List (Str × (List Str × Nat)))
    (m : List (Str × List (List Str × Nat)))
    (h1 : row.get? colnumber = some cell) (h2 : row.get? 0 = some cc)
    (h3 : lookupA cd cc = none) :
    crossvalidateGo colnumber (row :: rest) n cd m =
      crossvalidateGo colnumber rest (n + 1)
        (setA cd cc (build_target_list cell, n + 1)) m := by
  simp only [crossvalidateGo, h1, h2, h3]

theorem crossvalidateGo_same {colnumber : Nat} {row : List Str} {cell cc : Str}
    {tr : List Str × Nat}
    (rest : List (List Str)) (n : Nat) (cd : List (Str × (List Str × Nat)))
    (m : List (Str × List (List Str × Nat)))
    (h1 : row.get? colnumber = some cell) (h2 : row.get? 0 = some cc)
    (h3 : lookupA cd cc = some tr) (h4 : tr.1 = build_target_list cell) :
    crossvalidateGo colnumber (row :: rest) n cd m =
      crossvalidateGo colnumber rest (n + 1) cd m := by
  simp only [crossvalidateGo, h1, h2, h3]
  rw [if_neg (by simp [h4])]

theorem crossvalidateGo_div_later {colnumber : Nat} {row : List Str} {cell cc : Str}
    {tr : List Str × Nat} {l : List (List Str × Nat)}
    (rest : List (List Str)) (n : Nat) (cd : List (Str × (List Str × Nat)))
    (m : List (Str × List (List Str × Nat)))
    (h1 : row.get? colnumber = some cell) (h2 : row.get? 0 = some cc)
    (h3 : lookupA cd cc = some tr) (h4 : tr.1 ≠ build_target_list cell)
    (h5 : lookupA m cc = some l) :
    crossvalidateGo colnumber (row :: rest) n cd m =
      crossvalidateGo colnumber rest (n + 1) cd m := by
  simp only [crossvalidateGo, h1, h2, h3]
  rw [if_pos h4, if_neg (by rw [h5]; simp)]

theorem crossvalidateGo_div_first {colnumber : Nat} {row : List Str} {cell cc : Str}
    {tr : List Str × Nat}
    (rest : List (List Str)) (n : Nat) (cd : List (Str × (List Str × Nat)))
    (m : List (Str × List (List Str × Nat)))
    (h1 : row.get? colnumber = some cell) (h2 : row.get? 0 = some cc)
    (h3 : lookupA cd cc = some tr) (h4 : tr.1 ≠ build_target_list cell)
    (h5 : lookupA m cc = none) :
    crossvalidateGo colnumber (row :: rest) n cd m =
      crossvalidateGo colnumber rest (n + 1) cd
        (appendEntry (appendEntry m cc tr) cc (build_target_list cell, n + 1)) := by
  simp only [crossvalidateGo, h1, h2, h3]
  rw [if_pos h4, if_pos (by rw [h5]; rfl), if_neg (by simp [lookupD, h5])]

theorem crossvalidateGo_two {colnumber : Nat} :
    ∀ (rows : List (List Str)) (n : Nat) (cd : List (Str × (List Str × Nat)))
      (m res : List (Str × List (List Str × Nat))),
      (∀ kl ∈ m, kl.2.length = 2) →
      (∀ kl ∈ m, kl.2 ≠ []) →
      crossvalidateGo colnumber rows n cd m = some res →
      ∀ kl ∈ res, kl.2.length = 2 := by
  intro rows
  induction rows with
  | nil =>
    intro n cd m res h1 _ hgo
    cases hgo
    exact h1
  | cons row rest ih =>
    intro n cd m res h1 h2 hgo
    cases hc1 : row.get? colnumber with
    | none => rw [crossvalidateGo_err1 rest n cd m hc1] at hgo; cases hgo
    | some cell =>
      cases hc2 : row.get? 0 with
      | none => rw [crossvalidateGo_err2 rest n cd m hc1 hc2] at hgo; cases hgo
      | some cc =>
        cases hc3 : lookupA cd cc with
        | none =>
          rw [crossvalidateGo_new rest n cd m hc1 hc2 hc3] at hgo
          exact ih _ _ _ _ h1 h2 hgo
        | some tr =>
          by_cases h4 : tr.1 = build_target_list cell
          · rw [crossvalidateGo_same rest n cd m hc1 hc2 hc3 h4] at hgo
            exact ih _ _ _ _ h1 h2 hgo
          · cases hc5 : lookupA m cc with
            | some l =>
              rw [crossvalidateGo_div_later rest n cd m hc1 hc2 hc3 h4 hc5] at hgo
              exact ih _ _ _ _ h1 h2 hgo
            | none =>
              rw [crossvalidateGo_div_first rest n cd m hc1 hc2 hc3 h4 hc5] at hgo
              have hkeys : ∀ kl ∈ m, kl.1 ≠ cc := lookupA_eq_none_iff.mp hc5
              have e1 : appendEntry m cc tr = m ++ [(cc, [tr])] :=
                appendEntry_of_forall_ne hkeys _
              have e2 : appendEntry (m ++ [(cc, [tr])]) cc (build_target_list cell, n + 1) =
                  m ++ [(cc, [tr, (build_target_list cell, n + 1)])] :=
                appendEntry_append_single hkeys _ _
              rw [e1, e2] at hgo
              refine ih _ _ _ _ ?_ ?_ hgo
              · intro kl hkl
                rcases List.mem_append.mp hkl with hkl' | hkl'
                · exact h1 kl hkl'
                · rcases List.mem_singleton.mp hkl' with rfl
                  rfl
              · intro kl hkl
                rcases List.mem_append.mp hkl with hkl' | hkl'
                · exact h2 kl hkl'
                · rcases List.mem_singleton.mp hkl' with rfl
                  simp

/-- C1 (counterexample): with three rows sharing concept code `"C1"` and three
pairwise different target lists, rows 2 and 3 both diverge from row 1, yet the
mismatch group records only the first divergence — row 3 contributes no entry,
contradicting the claim that a divergent pair is appended every time a
divergence recurs. -/
theorem c1_counterexample :
    crossvalidate_with_concept_code
      [["C1".data, "1.1".data], ["C1".data, "1.2".data], ["C1".data, "1.3".data]] 1 =
      some [("C1".data, [(["1.1".data], 1), (["1.2".data], 2)])] ∧
    (["1.3".data], 3) ∉ [((["1.1".data] : List Str), 1), (["1.2".data], 2)] := by
  constructor
  · decide
  · decide

/-- C1 (amended): the divergence-recording block runs only when the key is not
yet in the mismatch map, so each key's group holds exactly two entries — the
originally recorded pair and the first divergent pair; later divergences for
that key are not recorded. -/
theorem c1_crossvalidate_amended (wks : List (List Str)) (colnumber : Nat)
    (res : List (Str × List (List Str × Nat)))
    (h : crossvalidate_with_concept_code wks colnumber = some res) :
    ∀ kl ∈ res, kl.2.length = 2 :=
  crossvalidateGo_two wks 0 [] [] res (fun kl hkl => absurd hkl (List.not_mem_nil kl))
    (fun kl hkl => absurd hkl (List.not_mem_nil kl)) h

/-- C1 (witness): the amended theorem applied to the counterexample table and
its single mismatch group, whose length is exactly 2. -/
theorem c1_amended_witness :
    ((("C1".data : Str), [((["1.1".data] : List Str), 1), (["1.2".data], 2)])).2.length = 2 :=
  c1_crossvalidate_amended
    [["C1".data, "1.1".data], ["C1".data, "1.2".data], ["C1".data, "1.3".data]] 1
    [("C1".data, [(["1.1".data], 1), (["1.2".data], 2)])] (by decide)
    ("C1".data, [(["1.1".data], 1), (["1.2".data], 2)]) (by decide)

theorem crossvalidateGo_consistent {colnumber : Nat} :
    ∀ (rows : List (List Str)) (n : Nat) (cd : List (Str × (List Str × Nat))),
      (∀ row ∈ rows, (row.get? colnumber).isSome ∧ (row.get? 0).isSome) →
      (∀ r1 ∈ rows, ∀ r2 ∈ rows, r1.get? 0 = r2.get? 0 →
        (r1.get? colnumber).map build_target_list = (r2.get? colnumber).map build_target_list) →
      (∀ k tl r, lookupA cd k = some (tl, r) →
        ∀ row ∈ rows, row.get? 0 = some k →
          (row.get? colnumber).map build_target_list = some tl) →
      crossvalidateGo colnumber rows n cd [] = some [] := by
  intro rows
  induction rows with
  | nil => intro n cd _ _ _; rfl
  | cons row rest ih =>
    intro n cd hw hp hcd
    obtain ⟨hw1, hw2⟩ := hw row (by simp)
    obtain ⟨cell, hc1⟩ := Option.isSome_iff_exists.mp hw1
    obtain ⟨cc, hc2⟩ := Option.isSome_iff_exists.mp hw2
    cases hc3 : lookupA cd cc with
    | some tr =>
      obtain ⟨tl₀, r₀⟩ := tr
      have htl : (row.get? colnumber).map build_target_list = some tl₀ :=
        hcd cc tl₀ r₀ hc3 row (by simp) hc2
      rw [hc1] at htl
      have h4 : (tl₀, r₀).1 = build_target_list cell := by
        simpa using htl.symm
      rw [crossvalidateGo_same rest n cd [] hc1 hc2 hc3 h4]
      exact ih (n + 1) cd
        (fun r hr => hw r (List.mem_cons_of_mem _ hr))
        (fun r1 hr1 r2 hr2 =>
          hp r1 (List.mem_cons_of_mem _ hr1) r2 (List.mem_cons_of_mem _ hr2))
        (fun k tl r hk r' hr' => hcd k tl r hk r' (List.mem_cons_of_mem _ hr'))
    | none =>
      rw [crossvalidateGo_new rest n cd [] hc1 hc2 hc3]
      refine ih (n + 1) _ ?_ ?_ ?_
      · exact fun r hr => hw r (List.mem_cons_of_mem _ hr)
      · exact fun r1 hr1 r2 hr2 =>
          hp r1 (List.mem_cons_of_mem _ hr1) r2 (List.mem_cons_of_mem _ hr2)
      · intro k tl r hk row' hrow' hkey
        rw [lookupA_setA] at hk
        by_cases hcc : cc = k
        · subst hcc
          rw [if_pos rfl] at hk
          simp only [Option.some.injEq, Prod.mk.injEq] at hk
          have hkeyeq : row.get? 0 = row'.get? 0 := by rw [hc2, hkey]
          have := hp row (by simp) row' (List.mem_cons_of_mem _ hrow') hkeyeq
          rw [hc1] at this
          rw [← this]
          show some (build_target_list cell) = some tl
          rw [hk.1]
        · rw [if_neg hcc] at hk
          exact hcd k tl r hk row' (List.mem_cons_of_mem _ hrow') hkey

/-- C6: `crossvalidate_with_concept_code` returns an empty result on every
table in which all rows sharing a concept code have list-equal extracted
target lists; and on the spec's concrete scenario with one divergent row among
three rows sharing the key, the key maps to exactly the two-entry group
`[["3.1","3.2"], 1]` then `[["3.2"], 3]`, row 2 contributing no entry. -/
theorem c6_crossvalidate :
    (∀ (wks : List (List Str)) (colnumber : Nat),
      (∀ row ∈ wks, (row.get? colnumber).isSome ∧ (row.get? 0).isSome) →
      (∀ r1 ∈ wks, ∀ r2 ∈ wks, r1.get? 0 = r2.get? 0 →
        (r1.get? colnumber).map build_target_list = (r2.get? colnumber).map build_target_list) →
      crossvalidate_with_concept_code wks colnumber = some []) ∧
    crossvalidate_with_concept_code
      [["C1".data, "3.1\n3.2".data], ["C1".data, "3.1\n3.2".data], ["C1".data, "3.2".data]] 1 =
      some [("C1".data, [(["3.1".data, "3.2".data], 1), (["3.2".data], 3)])] := by
  constructor
  · intro wks colnumber hw hp
    exact crossvalidateGo_consistent wks 0 [] hw hp
      (fun k tl r hk => by simp [lookupA] at hk)
  · decide

/-- C6 (witness): a concrete consistent table on which the empty-result part
of the theorem applies. -/
theorem c6_witness :
    crossvalidate_with_concept_code
      [["C1".data, "3.1".data], ["C1".data, "3.1".data], ["C2".data, "7.a".data]] 1 = some [] :=
  c6_crossvalidate.1
    [["C1".data, "3.1".data], ["C1".data, "3.1".data], ["C2".data, "7.a".data]] 1
    (by decide) (by decide)

/-! ### Lemmas about `find_similar_text` -/

theorem find_similar_inner_subset {S : Type} [LT S]
    [DecidableRel ((· < ·) : S → S → Prop)]
    (sim : Str → Str → S) (threshold : S) (all_sim : Bool)
    (colld : Str → List Nat) (qacol : List Str) (tc : Nat) (val1 : Str) :
    ∀ (l : List Str) (rec : SimRec),
      rec ∈ find_similar_inner sim threshold ⟨all_sim, false⟩ colld qacol tc val1 l →
      rec ∈ find_similar_inner sim threshold ⟨all_sim, true⟩ colld qacol tc val1 l := by
  intro l
  induction l with
  | nil => intro rec h; exact h
  | cons val2 rest ih =>
    intro rec h
    unfold find_similar_inner at h ⊢
    by_cases h1 : val2 = []
    · rw [if_pos h1] at h ⊢
      exact ih rec h
    · rw [if_neg h1] at h ⊢
      by_cases h2 : val1 = val2
      · rw [if_pos h2] at h ⊢
        exact ih rec h
      · rw [if_neg h2] at h ⊢
        by_cases h3 : threshold < sim val1 val2
        · rw [if_pos h3] at h ⊢
          rcases List.mem_append.mp h with h' | h'
          · exact List.mem_append_left _ h'
          · exact List.mem_append_right _ (ih rec h')
        · rw [if_neg h3] at h ⊢
          rw [if_neg (by simp)] at h
          cases h

theorem find_similar_outer_subset {S : Type} [LT S]
    [DecidableRel ((· < ·) : S → S → Prop)]
    (sim : Str → Str → S) (threshold : S) (all_sim : Bool)
    (colld : Str → List Nat) (qacol : List Str) (tc : Nat) :
    ∀ (l : List Str) (rec : SimRec),
      rec ∈ find_similar_outer sim threshold ⟨all_sim, false⟩ colld qacol tc l →
      rec ∈ find_similar_outer sim threshold ⟨all_sim, true⟩ colld qacol tc l := by
  intro l
  induction l with
  | nil => intro rec h; exact h
  | cons val1 rest ih =>
    intro rec h
    unfold find_similar_outer at h ⊢
    rcases List.mem_append.mp h with h' | h'
    · by_cases h1 : val1 = []
      · rw [if_pos h1] at h'
        cases h'
      · rw [if_neg h1] at h' ⊢
        exact List.mem_append_left _
          (find_similar_inner_subset sim threshold all_sim colld qacol tc val1 _ rec h')
    · exact List.mem_append_right _ (ih rec h')

/-- C4: every record the similarity scan emits in fast mode
(`deeply_similar = false`) is also emitted in exhaustive mode
(`deeply_similar = true`), all other inputs held equal — the early break on a
score at or below the threshold can only remove pairs, never add them. -/
theorem c4_similarity_superset {S : Type} [LT S]
    [DecidableRel ((· < ·) : S → S → Prop)]
    (sim : Str → Str → S) (threshold : S) (all_sim : Bool)
    (col qacol : List Str) (title_count : Nat) (rec : SimRec)
    (h : rec ∈ find_similar_text sim threshold ⟨all_sim, false⟩ col qacol title_count) :
    rec ∈ find_similar_text sim threshold ⟨all_sim, true⟩ col qacol title_count :=
  find_similar_outer_subset sim threshold all_sim (col_line_dict col title_count) qacol
    title_count (pysort (pydistinct col)) rec h

/-- C4 (witness): on two distinct texts with a similarity score above the
threshold, the fast scan emits the pair and the theorem transports it to the
exhaustive scan. -/
theorem c4_witness :
    (([1], "x".data, [2], "y".data) : SimRec) ∈
      find_similar_text (fun _ _ => (1 : Nat)) 0 ⟨true, false⟩
        ["x".data, "y".data] [[], []] 0 ∧
    (([1], "x".data, [2], "y".data) : SimRec) ∈
      find_similar_text (fun _ _ => (1 : Nat)) 0 ⟨true, true⟩
        ["x".data, "y".data] [[], []] 0 :=
  ⟨by decide,
   c4_similarity_superset (fun _ _ => (1 : Nat)) 0 true ["x".data, "y".data] [[], []] 0
     ([1], "x".data, [2], "y".data) (by decide)⟩

theorem find_similar_inner_shape {S : Type} [LT S]
    [DecidableRel ((· < ·) : S → S → Prop)]
    (sim : Str → Str → S) (threshold : S) (args : SimArgs)
    (colld : Str → List Nat) (qacol : List Str) (tc : Nat) (val1 : Str) :
    ∀ (l : List Str) (rec : SimRec),
      rec ∈ find_similar_inner sim threshold args colld qacol tc val1 l →
      ∃ v2, rec = (colld val1, val1, colld v2, v2) := by
  intro l
  induction l with
  | nil => intro rec h; cases h
  | cons val2 rest ih =>
    intro rec h
    unfold find_similar_inner at h
    by_cases h1 : val2 = []
    · rw [if_pos h1] at h
      exact ih rec h
    · rw [if_neg h1] at h
      by_cases h2 : val1 = val2
      · rw [if_pos h2] at h
        exact ih rec h
      · rw [if_neg h2] at h
        by_cases h3 : threshold < sim val1 val2
        · rw [if_pos h3] at h
          rcases List.mem_append.mp h with h' | h'
          · by_cases h4 : (if args.all_similar then false else
                ((colld val1 ++ colld val2).all
                  (fun x => decide (qacol.getD (x - 1 - tc) [] ∈ qa_done_values)))) = true
            · rw [if_pos h4] at h'
              cases h'
            · rw [if_neg h4] at h'
              rcases List.mem_singleton.mp h' with rfl
              exact ⟨val2, rfl⟩
          · exact ih rec h'
        · rw [if_neg h3] at h
          by_cases h5 : args.deeply_similar = true
          · rw [if_pos h5] at h
            exact ih rec h
          · rw [if_neg h5] at h
            cases h

theorem find_similar_outer_shape {S : Type} [LT S]
    [DecidableRel ((· < ·) : S → S → Prop)]
    (sim : Str → Str → S) (threshold : S) (args : SimArgs)
    (colld : Str → List Nat) (qacol : List Str) (tc : Nat) :
    ∀ (l : List Str) (rec : SimRec),
      rec ∈ find_similar_outer sim threshold args colld qacol tc l →
      ∃ v1 v2, rec = (colld v1, v1, colld v2, v2) := by
  intro l
  induction l with
  | nil => intro rec h; cases h
  | cons val1 rest ih =>
    intro rec h
    unfold find_similar_outer at h
    rcases List.mem_append.mp h with h' | h'
    · by_cases h1 : val1 = []
      · rw [if_pos h1] at h'
        cases h'
      · rw [if_neg h1] at h'
        obtain ⟨v2, hv2⟩ :=
          find_similar_inner_shape sim threshold args colld qacol tc val1 _ rec h'
        exact ⟨val1, v2, hv2⟩
    · exact ih rec h'

theorem mem_col_line_dict {col : List Str} {tc : Nat} {v : Str} {x : Nat}
    (h : x ∈ col_line_dict col tc v) :
    ∃ nn, col.get? nn = some v ∧ x = nn + 1 + tc := by
  unfold col_line_dict at h
  rw [List.mem_filterMap] at h
  obtain ⟨p, hp, hx⟩ := h
  by_cases hv : p.2 = v
  · rw [if_pos hv] at hx
    obtain ⟨i, w⟩ := p
    obtain ⟨hlt, hw⟩ := List.mem_enum hp
    refine ⟨i, ?_, ?_⟩
    · rw [List.get?_eq_getElem?, List.getElem?_eq_getElem hlt, ← hw]
      exact congrArg some hv
    · exact (Option.some.inj hx).symm
  · rw [if_neg hv] at hx
    cases hx

/-! ### Provenance of row numbers in `finddups` -/

theorem finddupsGo_prov {colnumber : Nat} {wks : List (List Str)} :
    ∀ (rows : List (List Str)) (n : Nat) (uniq : List (Str × List Str))
      (mism res : List (Str × List (Str × Nat))),
      wks.drop n = rows →
      (∀ kl ∈ mism, ∀ vi ∈ kl.2, 1 ≤ vi.2 ∧
        ∃ row, wks.get? (vi.2 - 1) = some row ∧ row.get? colnumber = some vi.1) →
      finddupsGo colnumber rows n uniq mism = some res →
      ∀ kl ∈ res, ∀ vi ∈ kl.2, 1 ≤ vi.2 ∧
        ∃ row, wks.get? (vi.2 - 1) = some row ∧ row.get? colnumber = some vi.1 := by
  intro rows
  induction rows with
  | nil =>
    intro n uniq mism res _ hmism hgo
    cases hgo
    exact hmism
  | cons row rest ih =>
    intro n uniq mism res hdrop hmism hgo
    have hget : wks.get? n = some row := by
      have h0 := List.getElem?_drop wks n 0
      rw [hdrop] at h0
      rw [List.get?_eq_getElem?]
      simpa using h0.symm
    have hdrop' : wks.drop (n + 1) = rest := by
      have := List.drop_drop 1 n wks
      rw [hdrop] at this
      simpa using this.symm
    cases hkc : rowKeyCell colnumber row with
    | none =>
      rw [finddupsGo_cons_none rest n uniq mism hkc] at hgo
      cases hgo
    | some p =>
      obtain ⟨cid, cell⟩ := p
      have hcell : row.get? colnumber = some cell := rowKeyCell_inv hkc
      rw [finddupsGo_cons rest n uniq mism hkc] at hgo
      by_cases hmem : cell ∈ lookupD uniq cid
      · rw [if_pos hmem, if_pos hmem] at hgo
        exact ih (n + 1) _ _ res hdrop' hmism hgo
      · rw [if_neg hmem, if_neg hmem] at hgo
        refine ih (n + 1) _ _ res hdrop' ?_ hgo
        intro kl hkl vi hvi
        rcases mem_appendEntry kl hkl with h' | ⟨l', hl', he⟩ | h'
        · exact hmism kl h' vi hvi
        · subst he
          rcases List.mem_append.mp hvi with hvi' | hvi'
          · exact hmism (cid, l') hl' vi hvi'
          · rcases List.mem_singleton.mp hvi' with rfl
            exact ⟨by omega, row, by simpa using hget, hcell⟩
        · subst h'
          rcases List.mem_singleton.mp hvi with rfl
          exact ⟨by omega, row, by simpa using hget, hcell⟩

/-- C10: the similarity scan's emitted row numbers equal the row's 1-based
position in the iterated column plus the title-row count (the offset is added
when the value-to-rows map is built), whereas `finddups` reports positions
relative to the iterated table only — each recorded row number `i` satisfies
`1 ≤ i` and points at the row of the table holding exactly that cell value,
with no title offset applied. -/
theorem c10_row_number_offsets :
    (∀ (S : Type) [LT S] [DecidableRel ((· < ·) : S → S → Prop)]
        (sim : Str → Str → S) (threshold : S) (args : SimArgs)
        (col qacol : List Str) (title_count : Nat) (rec : SimRec),
      rec ∈ find_similar_text sim threshold args col qacol title_count →
      (∀ x ∈ rec.1, ∃ nn, col.get? nn = some rec.2.1 ∧ x = nn + 1 + title_count) ∧
      (∀ x ∈ rec.2.2.1, ∃ nn, col.get? nn = some rec.2.2.2 ∧ x = nn + 1 + title_count)) ∧
    (∀ (wks : List (List Str)) (colnumber : Nat) (res : List (Str × List (Str × Nat))),
      finddups wks colnumber = some res →
      ∀ kl ∈ res, ∀ vi ∈ kl.2, 1 ≤ vi.2 ∧
        ∃ row, wks.get? (vi.2 - 1) = some row ∧ row.get? colnumber = some vi.1) := by
  constructor
  · intro S inst instD sim threshold args col qacol title_count rec hrec
    obtain ⟨v1, v2, rfl⟩ :=
      find_similar_outer_shape sim threshold args (col_line_dict col title_count) qacol
        title_count (pysort (pydistinct col)) rec hrec
    constructor
    · intro x hx
      exact mem_col_line_dict hx
    · intro x hx
      exact mem_col_line_dict hx
  · intro wks colnumber res hres
    unfold finddups at hres
    cases hgo : finddupsGo colnumber wks 0 [] [] with
    | none => rw [hgo] at hres; cases hres
    | some m =>
      rw [hgo] at hres
      simp only [Option.map_some', Option.some.injEq] at hres
      subst hres
      intro kl hkl
      have hm := finddupsGo_prov wks 0 [] [] m rfl
        (fun kl hkl => absurd hkl (List.not_mem_nil kl)) hgo
      exact hm kl (List.mem_filter.mp hkl).1

/-- C10 (witness): concrete instances of both conjuncts — a similarity record
with title offset 2, and a `finddups` result with no offset. -/
theorem c10_witness :
    ((∀ x ∈ (([3], "x".data, [4], "y".data) : SimRec).1,
        ∃ nn, (["x".data, "y".data] : List Str).get? nn = some "x".data ∧ x = nn + 1 + 2) ∧
      (∀ x ∈ (([3], "x".data, [4], "y".data) : SimRec).2.2.1,
        ∃ nn, (["x".data, "y".data] : List Str).get? nn = some "y".data ∧ x = nn + 1 + 2)) ∧
    (∀ kl ∈ [(("Goal".data : Str), [(("Goal 3".data : Str), 1), ("Goal 3: H".data, 2)])],
      ∀ vi ∈ kl.2, 1 ≤ vi.2 ∧
        ∃ row, ([["Goal 3".data], ["Goal 3: H".data]] : List (List Str)).get? (vi.2 - 1) =
          some row ∧ row.get? 0 = some vi.1) :=
  ⟨c10_row_number_offsets.1 Nat (fun _ _ => (1 : Nat)) 0 ⟨true, false⟩
      ["x".data, "y".data] [[], []] 2 ([3], "x".data, [4], "y".data) (by decide),
   c10_row_number_offsets.2 [["Goal 3".data], ["Goal 3: H".data]] 0
      [("Goal".data, [("Goal 3".data, 1), ("Goal 3: H".data, 2)])] (by decide)⟩

